import Mathlib

/-!
Verification of the folly build-unit analyzer (src/folly/src/).

Shallow embedding conventions:
- Rust strings are modelled as lists of characters (type Str below); the Rust
  code indexes strings with character positions obtained from
  chars().enumerate(), so list positions correspond directly.
- Rust str::to_lowercase is modelled with Char.toLower (the analyzed
  identifiers are ASCII).
- The shared node store (Rc<IntrusiveRefCell> inside a HashSet keyed by the
  node key) is modelled as an arena: a list of (key, payload) pairs where a
  handle is the index of the node; handle aliasing is index equality and
  interior mutation is point-update of the payload at that index.
- Rust panics (assert!, slice index inversion) and Err returns are modelled
  with Except.error.
-/

abbrev Str := List Char

inductive CharType where
  | DELIM
  | UPPER
  | LOWER
  | REGULAR
deriving DecidableEq, Repr

def get_char_type (c : Char) : CharType :=
  if c = '_' then CharType.DELIM
  else if 'a' ≤ c ∧ c ≤ 'z' then CharType.LOWER
  else if 'A' ≤ c ∧ c ≤ 'Z' then CharType.UPPER
  else CharType.REGULAR

lemma char_le_iff_toNat {a b : Char} : a ≤ b ↔ a.toNat ≤ b.toNat := by
  rw [Char.le_def, UInt32.le_def, BitVec.le_def]
  rfl

lemma toNat_lc : ('a' : Char).toNat = 97 ∧ ('z' : Char).toNat = 122 ∧
    ('A' : Char).toNat = 65 ∧ ('Z' : Char).toNat = 90 ∧
    ('_' : Char).toNat = 95 := by decide

lemma char_eq_iff_toNat {a b : Char} : a = b ↔ a.toNat = b.toNat := by
  constructor
  · intro h
    rw [h]
  · intro h
    apply Char.eq_of_val_eq
    apply UInt32.ext
    exact h

lemma upper_iff (c : Char) :
    get_char_type c = CharType.UPPER ↔ 65 ≤ c.toNat ∧ c.toNat ≤ 90 := by
  obtain ⟨ha, hz, hA, hZ, hu⟩ := toNat_lc
  unfold get_char_type
  split_ifs with h1 h2 h3
  · rw [char_eq_iff_toNat, hu] at h1
    simp
    omega
  · rw [char_le_iff_toNat, ha] at *
    rw [char_le_iff_toNat, hz] at h2
    obtain ⟨h2a, h2b⟩ := h2
    simp
    omega
  · rw [char_le_iff_toNat, hA] at h3
    rw [char_le_iff_toNat, hZ] at h3
    simp
    exact h3
  · rw [char_le_iff_toNat, hA, char_le_iff_toNat, hZ] at h3
    simp
    omega

lemma delim_iff (c : Char) :
    get_char_type c = CharType.DELIM ↔ c = '_' := by
  unfold get_char_type
  split_ifs with h1 h2 h3 <;> simp_all

lemma toNat_ofNat_valid (n : Nat) (h1 : n < 55296) : (Char.ofNat n).toNat = n := by
  rw [Char.ofNat, dif_pos (Or.inl h1)]
  rfl

lemma toLower_of_not_upper {c : Char} (h : get_char_type c ≠ CharType.UPPER) :
    c.toLower = c := by
  have h2 : ¬(65 ≤ c.toNat ∧ c.toNat ≤ 90) := mt (upper_iff c).mpr h
  rw [Char.toLower]
  split_ifs with h3
  · omega
  · rfl

lemma type_toLower_not_upper (c : Char) :
    get_char_type c.toLower ≠ CharType.UPPER := by
  by_cases h : get_char_type c = CharType.UPPER
  · have h2 := (upper_iff c).mp h
    rw [Char.toLower]
    split_ifs with h3
    · intro hx
      rw [upper_iff, toNat_ofNat_valid (c.toNat + 32) (by omega)] at hx
      omega
    · omega
  · rw [toLower_of_not_upper h]
    exact h

lemma type_toLower_delim_iff (c : Char) :
    get_char_type c.toLower = CharType.DELIM ↔ get_char_type c = CharType.DELIM := by
  by_cases h : get_char_type c = CharType.UPPER
  · have h2 := h
    rw [upper_iff] at h2
    rw [Char.toLower]
    split_ifs with h3
    · rw [delim_iff, char_eq_iff_toNat, toNat_ofNat_valid (c.toNat + 32) (by omega),
        toNat_lc.2.2.2.2]
      constructor
      · intro hx
        omega
      · intro hx
        rw [hx] at h
        exact absurd h (by decide)
    · omega
  · rw [toLower_of_not_upper h]

def to_lowercase (s : Str) : Str := s.map Char.toLower

def snakeGo : CharType → Str → Str → Str → Str
  | _, pending, acc, [] => acc ++ to_lowercase pending
  | prev, pending, acc, c :: rest =>
    let curr := get_char_type c
    if curr = CharType.DELIM then
      snakeGo curr [c] (acc ++ to_lowercase pending ++ [c]) rest
    else if prev = CharType.DELIM then
      snakeGo curr [c] acc rest
    else if (prev = CharType.LOWER ∨ prev = CharType.REGULAR) ∧
        curr = CharType.UPPER then
      snakeGo curr [c] (acc ++ to_lowercase pending ++ ['_']) rest
    else if prev = CharType.UPPER ∧ curr = CharType.LOWER ∧
        2 ≤ pending.length then
      snakeGo curr [pending.getLastD c, c]
        (acc ++ to_lowercase pending.dropLast ++ ['_']) rest
    else
      snakeGo curr (pending ++ [c]) acc rest

def camel_to_snake (s : Str) : Str := snakeGo CharType.DELIM [] [] s

def noUpper (s : Str) : Prop := ∀ c ∈ s, get_char_type c ≠ CharType.UPPER

def noDD (s : Str) : Prop :=
  List.Chain'
    (fun a b =>
      ¬(get_char_type a = CharType.DELIM ∧ get_char_type b = CharType.DELIM)) s

def lastNotDelim (s : Str) : Prop :=
  ∀ c ∈ s.getLast?, get_char_type c ≠ CharType.DELIM

lemma snakeGo_nil (prev : CharType) (pending acc : Str) :
    snakeGo prev pending acc [] = acc ++ to_lowercase pending := rfl

lemma snakeGo_cons_delim {c : Char} (prev : CharType) (pending acc rest : Str)
    (h : get_char_type c = CharType.DELIM) :
    snakeGo prev pending acc (c :: rest) =
      snakeGo CharType.DELIM [c] (acc ++ to_lowercase pending ++ [c]) rest := by
  rw [snakeGo]
  rw [if_pos h]
  rw [h]

lemma snakeGo_cons_afterDelim {c : Char} {prev : CharType} (pending acc rest : Str)
    (h1 : get_char_type c ≠ CharType.DELIM) (h2 : prev = CharType.DELIM) :
    snakeGo prev pending acc (c :: rest) =
      snakeGo (get_char_type c) [c] acc rest := by
  rw [snakeGo]
  simp only [if_neg h1, if_pos h2]

lemma snakeGo_cons_toUpper {c : Char} {prev : CharType} (pending acc rest : Str)
    (h1 : get_char_type c = CharType.UPPER)
    (h2 : prev = CharType.LOWER ∨ prev = CharType.REGULAR) :
    snakeGo prev pending acc (c :: rest) =
      snakeGo CharType.UPPER [c] (acc ++ to_lowercase pending ++ ['_']) rest := by
  have h3 : get_char_type c ≠ CharType.DELIM := by
    rw [h1]
    decide
  have h4 : prev ≠ CharType.DELIM := by
    rcases h2 with h | h <;> (rw [h]; decide)
  rw [snakeGo]
  rw [if_neg h3, if_neg h4, if_pos (And.intro h2 h1)]
  rw [h1]

lemma snakeGo_cons_upperRun {c : Char} {prev : CharType} (pending acc rest : Str)
    (h1 : prev = CharType.UPPER) (h2 : get_char_type c = CharType.LOWER)
    (h3 : 2 ≤ pending.length) :
    snakeGo prev pending acc (c :: rest) =
      snakeGo CharType.LOWER [pending.getLastD c, c]
        (acc ++ to_lowercase pending.dropLast ++ ['_']) rest := by
  have h4 : get_char_type c ≠ CharType.DELIM := by
    rw [h2]
    decide
  have h5 : prev ≠ CharType.DELIM := by
    rw [h1]
    decide
  have h6 : ¬((prev = CharType.LOWER ∨ prev = CharType.REGULAR) ∧
      get_char_type c = CharType.UPPER) := by
    rw [h1, h2]
    decide
  rw [snakeGo]
  rw [if_neg h4, if_neg h5, if_neg h6, if_pos (And.intro h1 (And.intro h2 h3))]
  rw [h2]

lemma snakeGo_cons_other {c : Char} {prev : CharType} (pending acc rest : Str)
    (h1 : get_char_type c ≠ CharType.DELIM) (h2 : prev ≠ CharType.DELIM)
    (h3 : ¬((prev = CharType.LOWER ∨ prev = CharType.REGULAR) ∧
      get_char_type c = CharType.UPPER))
    (h4 : ¬(prev = CharType.UPPER ∧ get_char_type c = CharType.LOWER ∧
      2 ≤ pending.length)) :
    snakeGo prev pending acc (c :: rest) =
      snakeGo (get_char_type c) (pending ++ [c]) acc rest := by
  rw [snakeGo]
  simp only [if_neg h1, if_neg h2, if_neg h3, if_neg h4]

lemma charType_LR {c : Char} (h1 : get_char_type c ≠ CharType.DELIM)
    (h2 : get_char_type c ≠ CharType.UPPER) :
    get_char_type c = CharType.LOWER ∨ get_char_type c = CharType.REGULAR := by
  cases h : get_char_type c <;> simp_all

lemma noUpper_tail {c : Char} {l : Str} (h : noUpper (c :: l)) : noUpper l :=
  fun d hd => h d (List.mem_cons_of_mem c hd)

lemma noUpper_head {c : Char} {l : Str} (h : noUpper (c :: l)) :
    get_char_type c ≠ CharType.UPPER :=
  h c (List.mem_cons_self c l)

lemma noDD_tail {c : Char} {l : Str} (h : noDD (c :: l)) : noDD l :=
  (List.chain'_cons'.mp h).2

lemma noDD_pair {c d : Char} {l : Str} (h : noDD (c :: d :: l))
    (hc : get_char_type c = CharType.DELIM) :
    get_char_type d ≠ CharType.DELIM := by
  have h2 := (List.chain'_cons'.mp h).1 d rfl
  intro hd
  exact h2 ⟨hc, hd⟩

lemma lastNotDelim_tail {c : Char} {l : Str} (h : lastNotDelim (c :: l))
    (hl : l ≠ []) : lastNotDelim l := by
  intro d hd
  apply h d
  rcases l with _ | ⟨e, l2⟩
  · exact absurd rfl hl
  · rw [List.getLast?_cons_cons]
    exact hd

lemma lastNotDelim_single {c : Char} {l : Str} (h : lastNotDelim (c :: l))
    (hl : l = []) : get_char_type c ≠ CharType.DELIM := by
  subst hl
  exact h c rfl

lemma rest_nonempty_of_delim {c : Char} {l : Str} (h : lastNotDelim (c :: l))
    (hc : get_char_type c = CharType.DELIM) : l ≠ [] := by
  intro hl
  exact absurd hc (lastNotDelim_single h hl)

lemma snakeGo_clean : ∀ (rest : Str) (prev : CharType) (pending acc : Str),
    noUpper rest → noDD rest → lastNotDelim rest →
    (((prev = CharType.LOWER ∨ prev = CharType.REGULAR) →
      snakeGo prev pending acc rest = acc ++ to_lowercase pending ++ rest)
    ∧ (prev = CharType.DELIM →
        (pending = [] ∨
          ∃ c2 rest2, rest = c2 :: rest2 ∧ get_char_type c2 ≠ CharType.DELIM) →
        snakeGo prev pending acc rest = acc ++ rest)) := by
  intro rest
  induction rest with
  | nil =>
    intro prev pending acc _ _ _
    constructor
    · intro _
      rw [snakeGo_nil]
      simp
    · intro _ hor
      rcases hor with hor | ⟨c2, rest2, hbad, _⟩
      · subst hor
        rw [snakeGo_nil]
        simp [to_lowercase]
      · exact absurd hbad (by simp)
  | cons c rest2 ih =>
    intro prev pending acc hU hD hL
    have hcU : get_char_type c ≠ CharType.UPPER := noUpper_head hU
    have hU2 : noUpper rest2 := noUpper_tail hU
    have hD2 : noDD rest2 := noDD_tail hD
    constructor
    · intro hp
      by_cases hc : get_char_type c = CharType.DELIM
      · -- a delimiter: emit pending and the delimiter, then continue in DELIM state
        have hne : rest2 ≠ [] := rest_nonempty_of_delim hL hc
        have hL2 : lastNotDelim rest2 := lastNotDelim_tail hL hne
        rcases rest2 with _ | ⟨d, rest3⟩
        · exact absurd rfl hne
        · have hd : get_char_type d ≠ CharType.DELIM := noDD_pair hD hc
          rw [snakeGo_cons_delim _ _ _ _ hc]
          rw [(ih CharType.DELIM [c] (acc ++ to_lowercase pending ++ [c]) hU2 hD2 hL2).2
            rfl (Or.inr ⟨d, rest3, rfl, hd⟩)]
          simp
      · have hLR := charType_LR hc hcU
        have hL2 : lastNotDelim rest2 := by
          rcases rest2 with _ | ⟨d, rest3⟩
          · intro x hx
            simp at hx
          · exact lastNotDelim_tail hL (by simp)
        have hpU : prev ≠ CharType.UPPER := by
          rcases hp with h | h <;> (rw [h]; decide)
        have hpD : prev ≠ CharType.DELIM := by
          rcases hp with h | h <;> (rw [h]; decide)
        rw [snakeGo_cons_other pending acc rest2 hc hpD
          (fun hx => hcU hx.2) (fun hx => hpU hx.1)]
        rw [((ih (get_char_type c) (pending ++ [c]) acc hU2 hD2 hL2).1 hLR)]
        rw [show to_lowercase (pending ++ [c]) = to_lowercase pending ++ [c.toLower] by
          simp [to_lowercase]]
        rw [toLower_of_not_upper hcU]
        simp
    · intro hp hor
      by_cases hc : get_char_type c = CharType.DELIM
      · have hpend : pending = [] := by
          rcases hor with h | ⟨c2, r2, heq, hne⟩
          · exact h
          · rw [List.cons.injEq] at heq
            rw [← heq.1] at hne
            exact absurd hc hne
        subst hpend
        have hne : rest2 ≠ [] := rest_nonempty_of_delim hL hc
        have hL2 : lastNotDelim rest2 := lastNotDelim_tail hL hne
        rcases rest2 with _ | ⟨d, rest3⟩
        · exact absurd rfl hne
        · have hd : get_char_type d ≠ CharType.DELIM := noDD_pair hD hc
          rw [snakeGo_cons_delim _ _ _ _ hc]
          rw [(ih CharType.DELIM [c] (acc ++ to_lowercase [] ++ [c]) hU2 hD2 hL2).2
            rfl (Or.inr ⟨d, rest3, rfl, hd⟩)]
          simp [to_lowercase]
      · have hLR := charType_LR hc hcU
        have hL2 : lastNotDelim rest2 := by
          rcases rest2 with _ | ⟨d, rest3⟩
          · intro x hx
            simp at hx
          · exact lastNotDelim_tail hL (by simp)
        rw [snakeGo_cons_afterDelim _ _ _ hc hp]
        rw [((ih (get_char_type c) [c] acc hU2 hD2 hL2).1 hLR)]
        rw [show to_lowercase [c] = [c.toLower] by simp [to_lowercase]]
        rw [toLower_of_not_upper hcU]
        simp

lemma camel_to_snake_fixed {t : Str} (hU : noUpper t) (hD : noDD t)
    (hL : lastNotDelim t) : camel_to_snake t = t := by
  rw [camel_to_snake]
  rw [(snakeGo_clean t CharType.DELIM [] [] hU hD hL).2 rfl (Or.inl rfl)]
  rfl

lemma not_upper_of_delim {c : Char} (h : get_char_type c = CharType.DELIM) :
    get_char_type c ≠ CharType.UPPER := by
  rw [h]
  decide

lemma lower_no_upper (l : Str) : noUpper (to_lowercase l) := by
  intro x hx
  rw [to_lowercase, List.mem_map] at hx
  obtain ⟨y, _, rfl⟩ := hx
  exact type_toLower_not_upper y

lemma lower_delim_free {l : Str} (h : ∀ x ∈ l, get_char_type x ≠ CharType.DELIM) :
    ∀ x ∈ to_lowercase l, get_char_type x ≠ CharType.DELIM := by
  intro x hx
  rw [to_lowercase, List.mem_map] at hx
  obtain ⟨y, hy, rfl⟩ := hx
  intro hd
  exact h y hy ((type_toLower_delim_iff y).mp hd)

lemma noDD_of_delim_free {l : Str} (h : ∀ x ∈ l, get_char_type x ≠ CharType.DELIM) :
    noDD l := by
  rw [noDD]
  induction l with
  | nil => exact List.chain'_nil
  | cons c l2 ih =>
    rw [List.chain'_cons']
    constructor
    · intro b _ hx
      exact h c (List.mem_cons_self c l2) hx.1
    · exact ih (fun x hx => h x (List.mem_cons_of_mem c hx))

lemma noUpper_append {a b : Str} (h1 : noUpper a) (h2 : noUpper b) :
    noUpper (a ++ b) := by
  intro x hx
  rcases List.mem_append.mp hx with h | h
  · exact h1 x h
  · exact h2 x h

lemma noDD_append_delimfree {acc tail : Str} (h1 : noDD acc)
    (h2 : ∀ x ∈ tail, get_char_type x ≠ CharType.DELIM) : noDD (acc ++ tail) := by
  rw [noDD, List.chain'_append]
  refine ⟨h1, noDD_of_delim_free h2, ?_⟩
  intro x _ y hy hxy
  exact h2 y (List.mem_of_mem_head? hy) hxy.2

lemma acc_ext {acc w : Str} {e : Char} (hDD : noDD acc) (hU : noUpper acc)
    (hw : w ≠ []) (hwf : ∀ x ∈ w, get_char_type x ≠ CharType.DELIM)
    (he : get_char_type e = CharType.DELIM) :
    noDD (acc ++ to_lowercase w ++ [e]) ∧ noUpper (acc ++ to_lowercase w ++ [e]) := by
  constructor
  · rw [noDD, List.chain'_append]
    refine ⟨noDD_append_delimfree hDD (lower_delim_free hwf), List.chain'_singleton e, ?_⟩
    intro x hx y hy hxy
    rw [List.getLast?_append] at hx
    have hlw : to_lowercase w ≠ [] := by
      rw [to_lowercase]
      simp [hw]
    rw [List.getLast?_eq_getLast_of_ne_nil hlw, Option.or_some, Option.mem_def,
      Option.some.injEq] at hx
    have hxl : x ∈ to_lowercase w := by
      rw [← hx]
      exact List.getLast_mem hlw
    exact lower_delim_free hwf x hxl hxy.1
  · refine noUpper_append (noUpper_append hU (lower_no_upper w)) ?_
    intro x hx
    rw [List.mem_singleton] at hx
    subst hx
    exact not_upper_of_delim he

def cleanStr (s : Str) : Prop := noUpper s ∧ noDD s ∧ lastNotDelim s

lemma lastNotDelim_of_cons {c : Char} {l : Str} (h : lastNotDelim (c :: l)) :
    lastNotDelim l := by
  rcases l with _ | ⟨d, l2⟩
  · intro x hx
    exact absurd hx (by simp)
  · exact lastNotDelim_tail h (by simp)

lemma snakeGo_clean_out : ∀ (rest : Str) (prev : CharType) (pending acc : Str),
    noDD rest → lastNotDelim rest →
    ((prev = CharType.DELIM ∧ pending = [] ∧ acc = []) ∨
     (prev = CharType.DELIM ∧ noDD acc ∧ noUpper acc ∧
       (∃ c2 rest2, rest = c2 :: rest2 ∧ get_char_type c2 ≠ CharType.DELIM)) ∨
     (prev ≠ CharType.DELIM ∧ pending ≠ [] ∧
       (∀ x ∈ pending, get_char_type x ≠ CharType.DELIM) ∧ noDD acc ∧ noUpper acc)) →
    cleanStr (snakeGo prev pending acc rest) := by
  intro rest
  induction rest with
  | nil =>
    intro prev pending acc _ _ hInv
    rw [snakeGo_nil]
    rcases hInv with ⟨_, hpend, hacc⟩ | ⟨_, _, _, c2, rest2, hbad, _⟩ |
      ⟨_, hpend, hpf, hDDa, hUa⟩
    · subst hpend
      subst hacc
      refine ⟨?_, ?_, ?_⟩
      · intro x hx
        exact absurd hx (by simp [to_lowercase])
      · rw [noDD, show ([] : Str) ++ to_lowercase [] = [] by simp [to_lowercase]]
        exact List.chain'_nil
      · intro x hx
        exact absurd hx (by simp [to_lowercase])
    · exact absurd hbad (by simp)
    · have hlw : to_lowercase pending ≠ [] := by
        rw [to_lowercase]
        simp [hpend]
      refine ⟨noUpper_append hUa (lower_no_upper pending),
        noDD_append_delimfree hDDa (lower_delim_free hpf), ?_⟩
      intro x hx
      rw [List.getLast?_append, List.getLast?_eq_getLast_of_ne_nil hlw,
        Option.or_some, Option.mem_def, Option.some.injEq] at hx
      have hxl : x ∈ to_lowercase pending := by
        rw [← hx]
        exact List.getLast_mem hlw
      exact lower_delim_free hpf x hxl
  | cons c rest2 ih =>
    intro prev pending acc hDD hL hInv
    have hDD2 : noDD rest2 := noDD_tail hDD
    have hL2 : lastNotDelim rest2 := lastNotDelim_of_cons hL
    rcases hInv with ⟨hp, hpend, hacc⟩ | ⟨hp, hDDa, hUa, c2, r2, heq, hc2⟩ |
      ⟨hpD, hpend, hpf, hDDa, hUa⟩
    · -- start state
      subst hpend
      subst hacc
      by_cases hc : get_char_type c = CharType.DELIM
      · have hne : rest2 ≠ [] := rest_nonempty_of_delim hL hc
        rcases rest2 with _ | ⟨d, rest3⟩
        · exact absurd rfl hne
        · have hd : get_char_type d ≠ CharType.DELIM := noDD_pair hDD hc
          rw [snakeGo_cons_delim _ _ _ _ hc]
          refine ih CharType.DELIM [c] _ hDD2 hL2 (Or.inr (Or.inl ⟨rfl, ?_, ?_, d, rest3, rfl, hd⟩))
          · rw [noDD, show ([] : Str) ++ to_lowercase [] ++ [c] = [c] by simp [to_lowercase]]
            exact List.chain'_singleton c
          · intro x hx
            rw [show ([] : Str) ++ to_lowercase [] ++ [c] = [c] by simp [to_lowercase],
              List.mem_singleton] at hx
            subst hx
            exact not_upper_of_delim hc
      · rw [snakeGo_cons_afterDelim _ _ _ hc hp]
        refine ih (get_char_type c) [c] [] hDD2 hL2 (Or.inr (Or.inr ⟨hc, by simp, ?_, ?_, ?_⟩))
        · intro x hx
          rw [List.mem_singleton] at hx
          subst hx
          exact hc
        · exact List.chain'_nil
        · intro x hx
          exact absurd hx (by simp)
    · -- just after a delimiter, next char known non-delimiter
      rw [List.cons.injEq] at heq
      obtain ⟨heq1, heq2⟩ := heq
      subst heq1
      subst heq2
      rw [snakeGo_cons_afterDelim _ _ _ hc2 hp]
      refine ih (get_char_type c) [c] acc hDD2 hL2 (Or.inr (Or.inr ⟨hc2, by simp, ?_, hDDa, hUa⟩))
      intro x hx
      rw [List.mem_singleton] at hx
      subst hx
      exact hc2
    · -- inside a word
      by_cases hc : get_char_type c = CharType.DELIM
      · have hne : rest2 ≠ [] := rest_nonempty_of_delim hL hc
        rcases rest2 with _ | ⟨d, rest3⟩
        · exact absurd rfl hne
        · have hd : get_char_type d ≠ CharType.DELIM := noDD_pair hDD hc
          rw [snakeGo_cons_delim _ _ _ _ hc]
          obtain ⟨hDDe, hUe⟩ := acc_ext hDDa hUa hpend hpf hc
          exact ih CharType.DELIM [c] _ hDD2 hL2
            (Or.inr (Or.inl ⟨rfl, hDDe, hUe, d, rest3, rfl, hd⟩))
      · by_cases h3 : (prev = CharType.LOWER ∨ prev = CharType.REGULAR) ∧
          get_char_type c = CharType.UPPER
        · rw [snakeGo_cons_toUpper _ _ _ h3.2 h3.1]
          obtain ⟨hDDe, hUe⟩ := acc_ext hDDa hUa hpend hpf
            (show get_char_type '_' = CharType.DELIM by decide)
          refine ih CharType.UPPER [c] _ hDD2 hL2
            (Or.inr (Or.inr ⟨by decide, by simp, ?_, hDDe, hUe⟩))
          intro x hx
          rw [List.mem_singleton] at hx
          subst hx
          exact hc
        · by_cases h4 : prev = CharType.UPPER ∧ get_char_type c = CharType.LOWER ∧
            2 ≤ pending.length
          · rw [snakeGo_cons_upperRun _ _ _ h4.1 h4.2.1 h4.2.2]
            have hdpne : pending.dropLast ≠ [] := by
              have := List.length_dropLast pending
              intro hx
              rw [hx] at this
              simp at this
              omega
            have hdpf : ∀ x ∈ pending.dropLast, get_char_type x ≠ CharType.DELIM :=
              fun x hx => hpf x ((List.dropLast_sublist pending).subset hx)
            obtain ⟨hDDe, hUe⟩ := acc_ext hDDa hUa hdpne hdpf
              (show get_char_type '_' = CharType.DELIM by decide)
            refine ih CharType.LOWER [pending.getLastD c, c] _ hDD2 hL2
              (Or.inr (Or.inr ⟨by decide, by simp, ?_, hDDe, hUe⟩))
            intro x hx
            have hpne : pending ≠ [] := hpend
            rcases List.mem_cons.mp hx with hx | hx
            · subst hx
              rw [List.getLastD_eq_getLast?, List.getLast?_eq_getLast_of_ne_nil hpne]
              exact hpf _ (List.getLast_mem hpne)
            · rw [List.mem_singleton] at hx
              subst hx
              exact hc
          · rw [snakeGo_cons_other _ _ _ hc hpD h3 h4]
            refine ih (get_char_type c) (pending ++ [c]) acc hDD2 hL2
              (Or.inr (Or.inr ⟨hc, by simp, ?_, hDDa, hUa⟩))
            intro x hx
            rcases List.mem_append.mp hx with hx | hx
            · exact hpf x hx
            · rw [List.mem_singleton] at hx
              subst hx
              exact hc

lemma camel_to_snake_clean {s : Str} (hD : noDD s) (hL : lastNotDelim s) :
    cleanStr (camel_to_snake s) :=
  snakeGo_clean_out s CharType.DELIM [] [] hD hL (Or.inl ⟨rfl, rfl, rfl⟩)

theorem camel_idem {s : Str} (hD : noDD s) (hL : lastNotDelim s) :
    camel_to_snake (camel_to_snake s) = camel_to_snake s := by
  obtain ⟨hU2, hD2, hL2⟩ := camel_to_snake_clean hD hL
  exact camel_to_snake_fixed hU2 hD2 hL2

example : camel_to_snake (camel_to_snake "a_".data) ≠ camel_to_snake "a_".data ∧
    camel_to_snake (camel_to_snake "a__b".data) ≠ camel_to_snake "a__b".data := by
  decide


instance instDecNoUpper (s : Str) : Decidable (noUpper s) :=
  inferInstanceAs (Decidable (∀ c ∈ s, get_char_type c ≠ CharType.UPPER))

def noDDb : Str → Bool
  | [] => true
  | [_] => true
  | a :: b :: rest =>
    !(get_char_type a == CharType.DELIM && get_char_type b == CharType.DELIM) &&
      noDDb (b :: rest)

lemma noDDb_iff : ∀ s, noDDb s = true ↔ noDD s
  | [] => by simp [noDDb, noDD]
  | [a] => by simp [noDDb, noDD]
  | a :: b :: rest => by
    rw [noDDb, noDD, List.chain'_cons, Bool.and_eq_true, ← noDD, ← noDDb_iff (b :: rest)]
    simp
    intro _
    tauto

instance instDecNoDD (s : Str) : Decidable (noDD s) :=
  decidable_of_iff (noDDb s = true) (noDDb_iff s)

instance instDecLastNotDelim (s : Str) : Decidable (lastNotDelim s) :=
  match h : s.getLast? with
  | none => isTrue (by
      intro c hc
      rw [h] at hc
      exact absurd hc (by simp))
  | some d =>
    if hd : get_char_type d = CharType.DELIM then
      isFalse (fun hall => hall d (by rw [h]; rfl) hd)
    else
      isTrue (by
        intro c hc
        rw [h, Option.mem_def, Option.some.injEq] at hc
        subst hc
        exact hd)

example : noDD "FooBar".data ∧ lastNotDelim "FooBar".data := by decide
example : camel_to_snake (camel_to_snake "a_".data) ≠ camel_to_snake "a_".data := by
  decide
example : camel_to_snake (camel_to_snake "FooBar".data) = camel_to_snake "FooBar".data :=
  camel_idem (by decide) (by decide)

/-! ## util.rs: file and include classification -/

inductive FileType where
  | UNKNOWN
  | HEADER
  | SOURCE
  | TEMPLATE
  | TEST
deriving DecidableEq, Repr

inductive HeaderLib where
  | UNKNOWN
  | FOLLY
deriving DecidableEq, Repr

/-- Identity of a compilation unit (types.rs UnitKey); equality is structural. -/
structure UnitKey where
  name : Str
  root_dir : Str
deriving DecidableEq, Repr

/--
Rust str::trim_end_matches: repeatedly removes the suffix pat while it
matches.  The fuel argument (at least the length of the string) makes the
recursion structural; one round removes at least one character, so
s.length rounds always suffice.
-/
def trimEndTimes : Nat → Str → Str → Str
  | 0, _, s => s
  | n + 1, pat, s =>
    if pat ≠ [] ∧ pat <:+ s then
      trimEndTimes n pat (s.take (s.length - pat.length))
    else s

def trimEndMatches (pat s : Str) : Str := trimEndTimes s.length pat s

/-- The suffix table of util.rs strip_file_name, in source order
(the comment in the source calls the order brittle). -/
def suffixes : List (Str × FileType) :=
  [("test.cpp".data, FileType.TEST),
   ("test.cc".data, FileType.TEST),
   (".cpp".data, FileType.SOURCE),
   (".cc".data, FileType.SOURCE),
   ("-inl.h".data, FileType.TEMPLATE),
   (".h".data, FileType.HEADER)]

/-- util.rs strip_file_name: first matching suffix wins; no match is UNKNOWN.
The Rust function returns Result but never returns Err, so it is embedded as
a plain pair. -/
def strip_file_name (file_name : Str) : Str × FileType :=
  match suffixes.find? (fun p => p.1.isSuffixOf file_name) with
  | some p => (camel_to_snake (trimEndMatches p.1 file_name), p.2)
  | none => (file_name, FileType.UNKNOWN)

/-- Index of the last slash (Rust str::rfind on the slash character). -/
def rfind_slash (path : Str) : Option Nat :=
  match path.reverse.findIdx? (fun c => c == '/') with
  | none => none
  | some j => some (path.length - 1 - j)

/--
util.rs strip_include.  Except.error models the places where the Rust
code panics: the assert(false) arms for an opening delimiter without a
closing one, and the slice line[start..end] with end < start (which panics
in Rust; it is reachable in the quote arm because the closing-quote index
is computed relative to start + 1 but used as an absolute index).
The quiet println arms return ok.
-/
def strip_include (line : Str) : Except Str (Option (UnitKey × HeaderLib)) :=
  if ¬("#include".data <+: line) then .ok none
  else
    let extract_unit := fun (start stop : Nat) =>
      if stop < start then Except.error line
      else
        let path := trimEndMatches ".h".data
          (trimEndMatches "-inl.h".data ((line.take stop).drop start))
        let root := match path.findIdx? (fun c => c == '/') with
          | none => path
          | some i => path.take i
        let key := match rfind_slash path with
          | none => { name := camel_to_snake path, root_dir := [] : UnitKey }
          | some i => { name := camel_to_snake (path.drop (i + 1)),
                        root_dir := path.take i : UnitKey }
        if root = "folly".data then Except.ok (some (key, HeaderLib.FOLLY))
        else Except.ok (some (key, HeaderLib.UNKNOWN))
    match line.findIdx? (fun c => c == '<') with
    | some start =>
      match line.findIdx? (fun c => c == '>') with
      | some stop => extract_unit (start + 1) stop
      | none => .error line
    | none =>
      match line.findIdx? (fun c => c == '"') with
      | some start =>
        match (line.drop (start + 1)).findIdx? (fun c => c == '"') with
        | some stop => extract_unit (start + 1) stop
        | none => .error line
      | none => .ok none

deriving instance DecidableEq for Except

-- model sanity checks for the resolver and classifier
example : strip_file_name "widget_test.cpp".data =
    ("widget__".data, FileType.TEST) := by decide
example : strip_file_name "Foo.h".data = ("foo".data, FileType.HEADER) := by decide
example : strip_file_name "FooBar-inl.h".data =
    ("foo_bar".data, FileType.TEMPLATE) := by decide
example : strip_file_name "README.md".data =
    ("README.md".data, FileType.UNKNOWN) := by decide
example : strip_include "#include <folly/FooBar.h>".data =
    .ok (some (⟨"foo_bar".data, "folly".data⟩, HeaderLib.FOLLY)) := by decide
example : strip_include "#include <vector>".data =
    .ok (some (⟨"vector".data, [] ⟩, HeaderLib.UNKNOWN)) := by decide
example : strip_include "#include \"FooBar-inl.h\"".data =
    .ok (some (⟨"fo".data, [] ⟩, HeaderLib.UNKNOWN)) := by decide
example : strip_include "#include \"FooBar.h\"".data =
    .error "#include \"FooBar.h\"".data := by decide
example : strip_include "#include <folly/Foo.h".data =
    .error "#include <folly/Foo.h".data := by decide
example : strip_include "int x = 3;".data = .ok none := by decide

/-! ## intrusive_hashmap.rs and types.rs: the shared node store

The Rust store is a HashSet of reference-counted nodes whose PartialEq and
Hash look only at the key (IntrusiveRefCell); the payload sits in a RefCell
and is mutated through shared handles.  The arena model below represents a
handle as the index of the node in the insertion-ordered list of nodes;
contains and get by key become a search by key, handle aliasing becomes
index equality, and RefCell mutation becomes point update of the payload.
-/

/-- Mutable payload of a unit (types.rs UnitInfo); deps and reverse_deps
hold handles, that is node indices. -/
structure UnitInfo where
  headers : List Str
  srcs : List Str
  deps : Finset Nat
  reverse_deps : Finset Nat
deriving DecidableEq

instance : Inhabited UnitInfo := ⟨⟨[], [], ∅, ∅⟩⟩

instance : Inhabited UnitKey := ⟨⟨[], []⟩⟩

/-- The node store (types.rs UnitMap): insertion-ordered arena of
(key, payload) nodes. -/
structure UnitMap where
  nodes : List (UnitKey × UnitInfo)
deriving DecidableEq

/-- intrusive_hashmap.rs extract_with_create: if a node with this key
exists return a handle to it (clone of the Rc), else create a node with a
default payload, register it and return its handle. -/
def extract_with_create (m : UnitMap) (key : UnitKey) : Nat × UnitMap :=
  match m.nodes.findIdx? (fun p => p.1 == key) with
  | some i => (i, m)
  | none => (m.nodes.length, ⟨m.nodes ++ [(key, default)]⟩)

/-- Key of the node a handle points at (reading key through the Rc). -/
def nodeKey (m : UnitMap) (i : Nat) : UnitKey := (m.nodes.getD i default).1

/-- Payload of the node a handle points at (borrowing the RefCell). -/
def readNode (m : UnitMap) (i : Nat) : UnitInfo := (m.nodes.getD i default).2

/-- In-place mutation of a payload through a handle (borrow_mut). -/
def updateVal (m : UnitMap) (i : Nat) (f : UnitInfo → UnitInfo) : UnitMap :=
  ⟨m.nodes.set i (nodeKey m i, f (readNode m i))⟩

/-- The de-duplication invariant of the store: no two node allocations
carry the same key. -/
def KeysNodup (m : UnitMap) : Prop := (m.nodes.map Prod.fst).Nodup

/-! ## main.rs: graph construction -/

/-- The mirrored pair of insertions in main.rs add_dependency_edges:
first curr is inserted into the reverse_deps of the dependency node, then
the dependency handle is inserted into the deps of curr. -/
def insertEdge (m : UnitMap) (curr dep : Nat) : UnitMap :=
  updateVal
    (updateVal m dep
      (fun info => { info with reverse_deps := insert curr info.reverse_deps }))
    curr
    (fun info => { info with deps := insert dep info.deps })

/-- main.rs add_dependency_edges: scan the lines of the current file; for
every include resolved in scope insert the mirrored pair of edges, creating
the dependency node on demand; skip an include resolving to the key of the
current node; an error from the resolver aborts. -/
def add_dependency_edges : UnitMap → Nat → List Str → Except Str UnitMap
  | m, _, [] => .ok m
  | m, curr, line :: rest =>
    match strip_include line with
    | .error e => .error e
    | .ok none => add_dependency_edges m curr rest
    | .ok (some (dep_key, hlib)) =>
      if dep_key = nodeKey m curr then add_dependency_edges m curr rest
      else
        match hlib with
        | HeaderLib.FOLLY =>
          let r := extract_with_create m dep_key
          add_dependency_edges (insertEdge r.2 curr r.1) curr rest
        | HeaderLib.UNKNOWN => add_dependency_edges m curr rest

/-- The two pieces of a Rust Path that add_node reads: file_name() and
parent() (each may be absent, converted to strings). -/
structure FPath where
  fileName : Option Str
  parent : Option Str

/-- The role match in main.rs add_node: headers for TEMPLATE and HEADER,
srcs for SOURCE and TEST (the UNKNOWN arm of the source is unreachable
behind the early return). -/
def pushFile (file_name : Str) (ft : FileType) : UnitInfo → UnitInfo :=
  fun info =>
    match ft with
    | FileType.TEMPLATE | FileType.HEADER =>
      { info with headers := info.headers ++ [file_name] }
    | _ => { info with srcs := info.srcs ++ [file_name] }

/-- main.rs add_node: classify the file name; unknown files are skipped;
otherwise get or create the unit keyed by (normalized base name, parent
directory), append the file name to headers or srcs by role, then scan the
contents for includes.  The UNKNOWN arm of the role match is unreachable
behind the early return. -/
def add_node (m : UnitMap) (path : FPath) (contents : List Str) :
    Except Str UnitMap :=
  match path.fileName with
  | none => .error "Could not determine file name".data
  | some file_name =>
    let r := strip_file_name file_name
    if r.2 = FileType.UNKNOWN then .ok m
    else
      match path.parent with
      | none => .error "Parent dir not found.".data
      | some parent =>
        let curr_key : UnitKey := ⟨r.1, parent⟩
        let e := extract_with_create m curr_key
        let m1 := updateVal e.2 e.1 (pushFile file_name r.2)
        add_dependency_edges m1 e.1 contents

/-- A directory tree with file contents, the input that
add_initial_subtree walks. -/
inductive FsTree where
  | file (name : Str) (contents : List Str)
  | dir (name : Str) (children : List FsTree)

mutual

/-- main.rs add_initial_subtree: recurse into directories, add_node on
files; dirPath is the path of the containing directory. -/
def add_initial_subtree (m : UnitMap) (dirPath : Str) :
    FsTree → Except Str UnitMap
  | .file name contents => add_node m ⟨some name, some dirPath⟩ contents
  | .dir name children =>
    add_subtree_children m (dirPath ++ '/' :: name) children

/-- The read_dir loop of add_initial_subtree; the question-mark operator
propagates the first error. -/
def add_subtree_children (m : UnitMap) (dirPath : Str) :
    List FsTree → Except Str UnitMap
  | [] => .ok m
  | t :: ts =>
    match add_initial_subtree m dirPath t with
    | .error e => .error e
    | .ok m2 => add_subtree_children m2 dirPath ts

end

/-- main.rs collapse_cycles: the body is Ok(()) — it changes nothing. -/
def collapse_cycles (m : UnitMap) : Except Str UnitMap := .ok m

/-- Mirrored-edge invariant: B in A.deps iff A in B.reverse_deps. -/
def Mirrored (m : UnitMap) : Prop :=
  ∀ a, a < m.nodes.length → ∀ b, b < m.nodes.length →
    (b ∈ (readNode m a).deps ↔ a ∈ (readNode m b).reverse_deps)

/-- Every edge endpoint is a live handle (an index into the arena). -/
def EdgesValid (m : UnitMap) : Prop :=
  ∀ i, i < m.nodes.length →
    (∀ j ∈ (readNode m i).deps, j < m.nodes.length) ∧
    (∀ j ∈ (readNode m i).reverse_deps, j < m.nodes.length)

/-- No unit depends on itself. -/
def SelfFree (m : UnitMap) : Prop :=
  ∀ i, i < m.nodes.length → i ∉ (readNode m i).deps

instance instDecMirrored (m : UnitMap) : Decidable (Mirrored m) :=
  inferInstanceAs (Decidable (∀ a, a < m.nodes.length → ∀ b, b < m.nodes.length →
    (b ∈ (readNode m a).deps ↔ a ∈ (readNode m b).reverse_deps)))

instance instDecEdgesValid (m : UnitMap) : Decidable (EdgesValid m) :=
  inferInstanceAs (Decidable (∀ i, i < m.nodes.length →
    (∀ j ∈ (readNode m i).deps, j < m.nodes.length) ∧
    (∀ j ∈ (readNode m i).reverse_deps, j < m.nodes.length)))

instance instDecSelfFree (m : UnitMap) : Decidable (SelfFree m) :=
  inferInstanceAs (Decidable (∀ i, i < m.nodes.length → i ∉ (readNode m i).deps))

instance instDecKeysNodup (m : UnitMap) : Decidable (KeysNodup m) :=
  inferInstanceAs (Decidable ((m.nodes.map Prod.fst).Nodup))

/-- The map main starts from: HashSet::new(). -/
def emptyMap : UnitMap := ⟨[]⟩

/-! ## Store lemmas -/

lemma updateVal_length (m : UnitMap) (i : Nat) (f : UnitInfo → UnitInfo) :
    (updateVal m i f).nodes.length = m.nodes.length := by
  simp [updateVal]

lemma readNode_updateVal_same {m : UnitMap} {i : Nat} {f : UnitInfo → UnitInfo}
    (h : i < m.nodes.length) :
    readNode (updateVal m i f) i = f (readNode m i) := by
  simp [readNode, updateVal, List.getElem?_set, h]

lemma readNode_updateVal_ne {m : UnitMap} {i j : Nat} {f : UnitInfo → UnitInfo}
    (h : i ≠ j) :
    readNode (updateVal m i f) j = readNode m j := by
  simp [readNode, updateVal, List.getElem?_set, h]

lemma nodeKey_updateVal (m : UnitMap) (i : Nat) (f : UnitInfo → UnitInfo)
    (j : Nat) : nodeKey (updateVal m i f) j = nodeKey m j := by
  by_cases hij : i = j
  · subst hij
    by_cases hlen : i < m.nodes.length
    · simp [nodeKey, updateVal, List.getElem?_set, hlen]
    · rw [updateVal, show m.nodes.set i (nodeKey m i, f (readNode m i)) = m.nodes from
        List.set_eq_of_length_le (Nat.le_of_not_lt hlen)]
  · simp [nodeKey, updateVal, List.getElem?_set, hij]

lemma keys_updateVal (m : UnitMap) (i : Nat) (f : UnitInfo → UnitInfo) :
    (updateVal m i f).nodes.map Prod.fst = m.nodes.map Prod.fst := by
  by_cases hlen : i < m.nodes.length
  · rw [updateVal, List.map_set]
    apply List.ext_getElem?
    intro n
    rw [List.getElem?_set]
    by_cases hn : i = n
    · subst hn
      rw [if_pos rfl, if_pos (by simpa using hlen)]
      have : (m.nodes.map Prod.fst)[i]? = some (nodeKey m i) := by
        rw [List.getElem?_map]
        rw [show m.nodes[i]? = some (m.nodes.getD i default) by
          rw [List.getD_eq_getElem?_getD, List.getElem?_eq_getElem hlen]
          rfl]
        rfl
      rw [this]
    · rw [if_neg hn]
  · rw [updateVal, show m.nodes.set i (nodeKey m i, f (readNode m i)) = m.nodes from
      List.set_eq_of_length_le (Nat.le_of_not_lt hlen)]

lemma KeysNodup_updateVal {m : UnitMap} {i : Nat} {f : UnitInfo → UnitInfo}
    (h : KeysNodup m) : KeysNodup (updateVal m i f) := by
  rw [KeysNodup, keys_updateVal]
  exact h

lemma ewc_found {m : UnitMap} {k : UnitKey} {i : Nat}
    (h : m.nodes.findIdx? (fun p => p.1 == k) = some i) :
    extract_with_create m k = (i, m) := by
  simp [extract_with_create, h]

lemma ewc_new {m : UnitMap} {k : UnitKey}
    (h : m.nodes.findIdx? (fun p => p.1 == k) = none) :
    extract_with_create m k = (m.nodes.length, ⟨m.nodes ++ [(k, default)]⟩) := by
  simp [extract_with_create, h]

lemma findIdx?_some_lt {m : UnitMap} {k : UnitKey} {i : Nat}
    (h : m.nodes.findIdx? (fun p => p.1 == k) = some i) : i < m.nodes.length :=
  (List.findIdx?_eq_some_iff_findIdx_eq.mp h).1

lemma findIdx?_some_key {m : UnitMap} {k : UnitKey} {i : Nat}
    (h : m.nodes.findIdx? (fun p => p.1 == k) = some i) : nodeKey m i = k := by
  obtain ⟨hlt, hp, -⟩ := List.findIdx?_eq_some_iff_getElem.mp h
  rw [nodeKey, List.getD_eq_getElem?_getD, List.getElem?_eq_getElem hlt]
  exact eq_of_beq hp

lemma key_notMem_of_none {m : UnitMap} {k : UnitKey}
    (h : m.nodes.findIdx? (fun p => p.1 == k) = none) :
    k ∉ m.nodes.map Prod.fst := by
  rw [List.findIdx?_eq_none_iff] at h
  intro hmem
  rw [List.mem_map] at hmem
  obtain ⟨p, hp, hpk⟩ := hmem
  have h2 := h p hp
  rw [hpk] at h2
  simp at h2

lemma ewc_idx_lt (m : UnitMap) (k : UnitKey) :
    (extract_with_create m k).1 < (extract_with_create m k).2.nodes.length := by
  rcases hfind : m.nodes.findIdx? (fun p => p.1 == k) with - | i
  · rw [ewc_new hfind]
    simp
  · rw [ewc_found hfind]
    exact findIdx?_some_lt hfind

lemma ewc_length_le (m : UnitMap) (k : UnitKey) :
    m.nodes.length ≤ (extract_with_create m k).2.nodes.length := by
  rcases hfind : m.nodes.findIdx? (fun p => p.1 == k) with - | i
  · rw [ewc_new hfind]
    simp
  · rw [ewc_found hfind]

lemma readNode_ewc_old {m : UnitMap} {k : UnitKey} {i : Nat}
    (h : i < m.nodes.length) :
    readNode (extract_with_create m k).2 i = readNode m i := by
  rcases hfind : m.nodes.findIdx? (fun p => p.1 == k) with - | j
  · rw [ewc_new hfind]
    rw [readNode, readNode]
    simp only [List.getD_eq_getElem?_getD]
    rw [List.getElem?_append_left h]
  · rw [ewc_found hfind]

lemma nodeKey_ewc_old {m : UnitMap} {k : UnitKey} {i : Nat}
    (h : i < m.nodes.length) :
    nodeKey (extract_with_create m k).2 i = nodeKey m i := by
  rcases hfind : m.nodes.findIdx? (fun p => p.1 == k) with - | j
  · rw [ewc_new hfind]
    rw [nodeKey, nodeKey]
    simp only [List.getD_eq_getElem?_getD]
    rw [List.getElem?_append_left h]
  · rw [ewc_found hfind]

lemma ewc_key (m : UnitMap) (k : UnitKey) :
    nodeKey (extract_with_create m k).2 (extract_with_create m k).1 = k := by
  rcases hfind : m.nodes.findIdx? (fun p => p.1 == k) with - | i
  · rw [ewc_new hfind]
    rw [nodeKey]
    simp only [List.getD_eq_getElem?_getD]
    rw [List.getElem?_append_right (Nat.le_refl _)]
    simp
  · rw [ewc_found hfind]
    exact findIdx?_some_key hfind

lemma KeysNodup_ewc {m : UnitMap} {k : UnitKey} (h : KeysNodup m) :
    KeysNodup (extract_with_create m k).2 := by
  rcases hfind : m.nodes.findIdx? (fun p => p.1 == k) with - | i
  · rw [ewc_new hfind]
    rw [KeysNodup] at h ⊢
    rw [List.map_append, List.nodup_append]
    refine ⟨h, List.nodup_singleton k, ?_⟩
    intro a ha hb
    rw [List.map_singleton, List.mem_singleton] at hb
    subst hb
    exact key_notMem_of_none hfind ha
  · rw [ewc_found hfind]
    exact h

/-- C1: calling extract_with_create twice with equal keys returns the same
handle on an unchanged store (so the two handles alias one node and a
mutation through one is read back through the other), and the store keeps
at most one node per key. -/
theorem extract_with_create_dedup (m : UnitMap) (k : UnitKey) (h : KeysNodup m) :
    (extract_with_create (extract_with_create m k).2 k).1 =
      (extract_with_create m k).1 ∧
    (extract_with_create (extract_with_create m k).2 k).2 =
      (extract_with_create m k).2 ∧
    KeysNodup (extract_with_create m k).2 ∧
    (∀ f : UnitInfo → UnitInfo,
      readNode (updateVal (extract_with_create m k).2 (extract_with_create m k).1 f)
        (extract_with_create m k).1 =
      f (readNode (extract_with_create m k).2 (extract_with_create m k).1)) := by
  have h2 : extract_with_create (extract_with_create m k).2 k =
      extract_with_create m k := by
    rcases hfind : m.nodes.findIdx? (fun p => p.1 == k) with - | i
    · rw [ewc_new hfind]
      have h3 : (⟨m.nodes ++ [(k, default)]⟩ : UnitMap).nodes.findIdx?
          (fun p => p.1 == k) = some m.nodes.length := by
        simp [List.findIdx?_append, hfind]
      rw [ewc_found h3]
    · rw [ewc_found hfind, ewc_found hfind]
  refine ⟨by rw [h2], by rw [h2], KeysNodup_ewc h,
    fun f => readNode_updateVal_same (ewc_idx_lt m k)⟩

/-- Witness for extract_with_create_dedup at a concrete store and key. -/
theorem extract_with_create_dedup_witness :
    KeysNodup emptyMap ∧
    (extract_with_create
        (extract_with_create emptyMap ⟨"foo".data, "folly".data⟩).2
        ⟨"foo".data, "folly".data⟩).1 =
      (extract_with_create emptyMap ⟨"foo".data, "folly".data⟩).1 :=
  ⟨by decide,
    (extract_with_create_dedup emptyMap ⟨"foo".data, "folly".data⟩ (by decide)).1⟩

/-- C9: collapse_cycles returns Ok and leaves the unit map unchanged. -/
theorem collapse_cycles_id (m : UnitMap) : collapse_cycles m = .ok m := rfl

/-- The 3-cycle a -> b -> c -> a plus d depending on a, with mirrored
reverse edges (node indices: a = 0, b = 1, c = 2, d = 3). -/
def cycleMap : UnitMap := ⟨[
  (⟨"a".data, "folly".data⟩, ⟨["A.h".data], [], {1}, {2, 3}⟩),
  (⟨"b".data, "folly".data⟩, ⟨["B.h".data], [], {2}, {0}⟩),
  (⟨"c".data, "folly".data⟩, ⟨["C.h".data], [], {0}, {1}⟩),
  (⟨"d".data, "folly".data⟩, ⟨["D.h".data], [], {0}, ∅⟩)]⟩

/-- C3, the code evaluated at the failing input: on the 3-unit cycle plus
dependent unit d, collapse_cycles returns the graph unchanged — all 4 units
survive (the cycle a -> b -> c -> a included), not the 2 the specification
describes. -/
theorem collapse_cycles_cycle_unchanged :
    collapse_cycles cycleMap = .ok cycleMap ∧
    cycleMap.nodes.length = 4 ∧
    1 ∈ (readNode cycleMap 0).deps ∧ 2 ∈ (readNode cycleMap 1).deps ∧
    0 ∈ (readNode cycleMap 2).deps ∧ 0 ∈ (readNode cycleMap 3).deps := by
  exact ⟨rfl, rfl, by decide, by decide, by decide, by decide⟩

/-- C10: a file whose name classifies as UNKNOWN is skipped: add_node
returns Ok with the map unchanged, for any contents (which are never
scanned) and any parent directory. -/
theorem add_node_unknown_skip (m : UnitMap) (name : Str) (parent : Option Str)
    (contents : List Str) (h : (strip_file_name name).2 = FileType.UNKNOWN) :
    add_node m ⟨some name, parent⟩ contents = .ok m := by
  simp [add_node, h]

/-- Witness for add_node_unknown_skip: README.md classifies UNKNOWN and is
skipped. -/
theorem add_node_unknown_skip_witness :
    (strip_file_name "README.md".data).2 = FileType.UNKNOWN ∧
    add_node cycleMap ⟨some "README.md".data, some "folly".data⟩
      ["#include <folly/Foo.h>".data] = .ok cycleMap :=
  ⟨by decide, add_node_unknown_skip cycleMap "README.md".data
    (some "folly".data) ["#include <folly/Foo.h>".data] (by decide)⟩

lemma readNode_ewc_new {m : UnitMap} {k : UnitKey}
    (h : m.nodes.findIdx? (fun p => p.1 == k) = none) :
    readNode (extract_with_create m k).2 m.nodes.length = default := by
  rw [ewc_new h, readNode]
  simp only [List.getD_eq_getElem?_getD]
  rw [List.getElem?_append_right (Nat.le_refl _)]
  simp

lemma Mirrored_EdgesValid_ewc {m : UnitMap} {k : UnitKey}
    (hM : Mirrored m) (hV : EdgesValid m) :
    Mirrored (extract_with_create m k).2 ∧ EdgesValid (extract_with_create m k).2 := by
  rcases hfind : m.nodes.findIdx? (fun p => p.1 == k) with - | i
  · have hnew := readNode_ewc_new hfind
    have hlen : (extract_with_create m k).2.nodes.length = m.nodes.length + 1 := by
      rw [ewc_new hfind]
      simp
    have hold : ∀ i, i < m.nodes.length →
        readNode (extract_with_create m k).2 i = readNode m i :=
      fun i hi => readNode_ewc_old hi
    have hdef : (default : UnitInfo).deps = ∅ ∧
        (default : UnitInfo).reverse_deps = ∅ := ⟨rfl, rfl⟩
    constructor
    · intro a ha b hb
      rw [hlen] at ha hb
      rcases Nat.lt_or_ge a m.nodes.length with ha2 | ha2 <;>
        rcases Nat.lt_or_ge b m.nodes.length with hb2 | hb2
      · rw [hold a ha2, hold b hb2]
        exact hM a ha2 b hb2
      · have hb3 : b = m.nodes.length := by omega
        subst hb3
        rw [hold a ha2, hnew, hdef.2]
        constructor
        · intro hmem
          exact absurd ((hV a ha2).1 _ hmem) (by omega)
        · intro hmem
          exact absurd hmem (Finset.not_mem_empty a)
      · have ha3 : a = m.nodes.length := by omega
        subst ha3
        rw [hold b hb2, hnew, hdef.1]
        constructor
        · intro hmem
          exact absurd hmem (Finset.not_mem_empty b)
        · intro hmem
          exact absurd ((hV b hb2).2 _ hmem) (by omega)
      · have ha3 : a = m.nodes.length := by omega
        have hb3 : b = m.nodes.length := by omega
        subst ha3
        subst hb3
        rw [hnew, hdef.1, hdef.2]
    · intro i hi
      rw [hlen] at hi
      rcases Nat.lt_or_ge i m.nodes.length with hi2 | hi2
      · rw [hold i hi2]
        exact ⟨fun j hj => by
            have := (hV i hi2).1 j hj
            omega,
          fun j hj => by
            have := (hV i hi2).2 j hj
            omega⟩
      · have hi3 : i = m.nodes.length := by omega
        subst hi3
        rw [hnew, hdef.1, hdef.2]
        exact ⟨fun j hj => absurd hj (Finset.not_mem_empty j),
          fun j hj => absurd hj (Finset.not_mem_empty j)⟩
  · rw [ewc_found hfind]
    exact ⟨hM, hV⟩

lemma SelfFree_ewc {m : UnitMap} {k : UnitKey} (hS : SelfFree m) :
    SelfFree (extract_with_create m k).2 := by
  rcases hfind : m.nodes.findIdx? (fun p => p.1 == k) with - | i
  · have hnew := readNode_ewc_new hfind
    have hlen : (extract_with_create m k).2.nodes.length = m.nodes.length + 1 := by
      rw [ewc_new hfind]
      simp
    intro i hi
    rw [hlen] at hi
    rcases Nat.lt_or_ge i m.nodes.length with hi2 | hi2
    · rw [readNode_ewc_old hi2]
      exact hS i hi2
    · have hi3 : i = m.nodes.length := by omega
      subst hi3
      rw [hnew]
      exact Finset.not_mem_empty _
  · rw [ewc_found hfind]
    exact hS

lemma insertEdge_length (m : UnitMap) (curr dep : Nat) :
    (insertEdge m curr dep).nodes.length = m.nodes.length := by
  rw [insertEdge, updateVal_length, updateVal_length]

lemma insertEdge_deps {m : UnitMap} {curr dep : Nat} (hc : curr < m.nodes.length) :
    ∀ x, x < m.nodes.length → (readNode (insertEdge m curr dep) x).deps =
      if x = curr then insert dep (readNode m x).deps else (readNode m x).deps := by
  intro x hx
  have hc1 : curr < (updateVal m dep
      (fun info => { info with reverse_deps := insert curr info.reverse_deps })).nodes.length := by
    rw [updateVal_length]
    exact hc
  by_cases hxc : x = curr
  · subst hxc
    rw [insertEdge, readNode_updateVal_same hc1, if_pos rfl]
    by_cases hcd : x = dep
    · subst hcd
      by_cases hlen : x < m.nodes.length
      · rw [readNode_updateVal_same hlen]
      · exact absurd hx hlen
    · rw [readNode_updateVal_ne (fun h => hcd h.symm)]
  · rw [insertEdge, readNode_updateVal_ne (fun h => hxc h.symm), if_neg hxc]
    by_cases hxd : x = dep
    · subst hxd
      by_cases hlen : x < m.nodes.length
      · rw [readNode_updateVal_same hlen]
      · exact absurd hx hlen
    · rw [readNode_updateVal_ne (fun h => hxd h.symm)]

lemma insertEdge_rdeps {m : UnitMap} {curr dep : Nat} (hc : curr < m.nodes.length) :
    ∀ x, x < m.nodes.length → (readNode (insertEdge m curr dep) x).reverse_deps =
      if x = dep then insert curr (readNode m x).reverse_deps
      else (readNode m x).reverse_deps := by
  intro x hx
  have hc1 : curr < (updateVal m dep
      (fun info => { info with reverse_deps := insert curr info.reverse_deps })).nodes.length := by
    rw [updateVal_length]
    exact hc
  by_cases hxc : x = curr
  · subst hxc
    rw [insertEdge, readNode_updateVal_same hc1]
    by_cases hxd : x = dep
    · subst hxd
      rw [readNode_updateVal_same hx, if_pos rfl]
    · rw [readNode_updateVal_ne (fun h => hxd h.symm), if_neg hxd]
  · rw [insertEdge, readNode_updateVal_ne (fun h => hxc h.symm)]
    by_cases hxd : x = dep
    · subst hxd
      rw [readNode_updateVal_same hx, if_pos rfl]
    · rw [readNode_updateVal_ne (fun h => hxd h.symm), if_neg hxd]

lemma Mirrored_EdgesValid_insertEdge {m : UnitMap} {curr dep : Nat}
    (hc : curr < m.nodes.length) (hd : dep < m.nodes.length)
    (hM : Mirrored m) (hV : EdgesValid m) :
    Mirrored (insertEdge m curr dep) ∧ EdgesValid (insertEdge m curr dep) := by
  constructor
  · intro a ha b hb
    rw [insertEdge_length] at ha hb
    rw [insertEdge_deps hc a ha, insertEdge_rdeps hc b hb]
    by_cases hac : a = curr <;> by_cases hbd : b = dep
    · subst hac
      subst hbd
      rw [if_pos rfl, if_pos rfl]
      simp
    · subst hac
      rw [if_pos rfl, if_neg hbd]
      rw [Finset.mem_insert, or_iff_right hbd]
      exact hM a ha b hb
    · subst hbd
      rw [if_neg hac, if_pos rfl]
      rw [Finset.mem_insert, or_iff_right hac]
      exact hM a ha b hb
    · rw [if_neg hac, if_neg hbd]
      exact hM a ha b hb
  · intro i hi
    rw [insertEdge_length] at hi
    rw [insertEdge_length, insertEdge_deps hc i hi, insertEdge_rdeps hc i hi]
    constructor
    · intro j hj
      by_cases hic : i = curr
      · rw [if_pos hic] at hj
        rcases Finset.mem_insert.mp hj with h | h
        · subst h
          exact hd
        · exact (hV i hi).1 j h
      · rw [if_neg hic] at hj
        exact (hV i hi).1 j hj
    · intro j hj
      by_cases hid : i = dep
      · rw [if_pos hid] at hj
        rcases Finset.mem_insert.mp hj with h | h
        · subst h
          exact hc
        · exact (hV i hi).2 j h
      · rw [if_neg hid] at hj
        exact (hV i hi).2 j hj

lemma SelfFree_insertEdge {m : UnitMap} {curr dep : Nat}
    (hc : curr < m.nodes.length) (hne : dep ≠ curr) (hS : SelfFree m) :
    SelfFree (insertEdge m curr dep) := by
  intro i hi
  rw [insertEdge_length] at hi
  rw [insertEdge_deps hc i hi]
  by_cases hic : i = curr
  · rw [if_pos hic]
    intro hmem
    rcases Finset.mem_insert.mp hmem with h | h
    · rw [hic] at h
      exact hne h.symm
    · exact hS i hi h
  · rw [if_neg hic]
    exact hS i hi

lemma add_dep_edges_nil (m : UnitMap) (curr : Nat) :
    add_dependency_edges m curr [] = .ok m := rfl

lemma add_dep_edges_cons_err {line : Str} {e : Str} (m : UnitMap) (curr : Nat)
    (rest : List Str) (h : strip_include line = .error e) :
    add_dependency_edges m curr (line :: rest) = .error e := by
  simp only [add_dependency_edges, h]

lemma add_dep_edges_cons_none {line : Str} (m : UnitMap) (curr : Nat)
    (rest : List Str) (h : strip_include line = .ok none) :
    add_dependency_edges m curr (line :: rest) =
      add_dependency_edges m curr rest := by
  simp only [add_dependency_edges, h]

lemma add_dep_edges_cons_self {line : Str} {dk : UnitKey} {hl : HeaderLib}
    (m : UnitMap) (curr : Nat) (rest : List Str)
    (h : strip_include line = .ok (some (dk, hl))) (h2 : dk = nodeKey m curr) :
    add_dependency_edges m curr (line :: rest) =
      add_dependency_edges m curr rest := by
  simp only [add_dependency_edges, h, if_pos h2]

lemma add_dep_edges_cons_unknown {line : Str} {dk : UnitKey}
    (m : UnitMap) (curr : Nat) (rest : List Str)
    (h : strip_include line = .ok (some (dk, HeaderLib.UNKNOWN)))
    (h2 : ¬ dk = nodeKey m curr) :
    add_dependency_edges m curr (line :: rest) =
      add_dependency_edges m curr rest := by
  simp only [add_dependency_edges, h, if_neg h2]

lemma add_dep_edges_cons_folly {line : Str} {dk : UnitKey}
    (m : UnitMap) (curr : Nat) (rest : List Str)
    (h : strip_include line = .ok (some (dk, HeaderLib.FOLLY)))
    (h2 : ¬ dk = nodeKey m curr) :
    add_dependency_edges m curr (line :: rest) =
      add_dependency_edges
        (insertEdge (extract_with_create m dk).2 curr (extract_with_create m dk).1)
        curr rest := by
  simp only [add_dependency_edges, h, if_neg h2]

lemma add_dep_edges_MV : ∀ (lines : List Str) (m : UnitMap) (curr : Nat)
    (m2 : UnitMap), add_dependency_edges m curr lines = .ok m2 →
    curr < m.nodes.length → Mirrored m → EdgesValid m →
    Mirrored m2 ∧ EdgesValid m2 ∧ m.nodes.length ≤ m2.nodes.length := by
  intro lines
  induction lines with
  | nil =>
    intro m curr m2 h hc hM hV
    rw [add_dep_edges_nil] at h
    cases h
    exact ⟨hM, hV, Nat.le_refl _⟩
  | cons line rest ih =>
    intro m curr m2 h hc hM hV
    rcases hsi : strip_include line with e | o
    · rw [add_dep_edges_cons_err m curr rest hsi] at h
      exact absurd h (by simp)
    · rcases o with - | ⟨dk, hl⟩
      · rw [add_dep_edges_cons_none m curr rest hsi] at h
        exact ih m curr m2 h hc hM hV
      · by_cases hkey : dk = nodeKey m curr
        · rw [add_dep_edges_cons_self m curr rest hsi hkey] at h
          exact ih m curr m2 h hc hM hV
        · cases hl with
          | UNKNOWN =>
            rw [add_dep_edges_cons_unknown m curr rest hsi hkey] at h
            exact ih m curr m2 h hc hM hV
          | FOLLY =>
            rw [add_dep_edges_cons_folly m curr rest hsi hkey] at h
            have hMV2 := Mirrored_EdgesValid_ewc (k := dk) hM hV
            have hc2 : curr < (extract_with_create m dk).2.nodes.length :=
              Nat.lt_of_lt_of_le hc (ewc_length_le m dk)
            have hd2 := ewc_idx_lt m dk
            have hMV3 := Mirrored_EdgesValid_insertEdge hc2 hd2 hMV2.1 hMV2.2
            have hc3 : curr < (insertEdge (extract_with_create m dk).2 curr
                (extract_with_create m dk).1).nodes.length := by
              rw [insertEdge_length]
              exact hc2
            obtain ⟨hM4, hV4, hle4⟩ := ih _ curr m2 h hc3 hMV3.1 hMV3.2
            refine ⟨hM4, hV4, ?_⟩
            calc m.nodes.length ≤ (extract_with_create m dk).2.nodes.length :=
                ewc_length_le m dk
              _ = (insertEdge (extract_with_create m dk).2 curr
                  (extract_with_create m dk).1).nodes.length :=
                (insertEdge_length _ _ _).symm
              _ ≤ m2.nodes.length := hle4

lemma add_dep_edges_SF : ∀ (lines : List Str) (m : UnitMap) (curr : Nat)
    (m2 : UnitMap), add_dependency_edges m curr lines = .ok m2 →
    curr < m.nodes.length → SelfFree m →
    SelfFree m2 ∧ m.nodes.length ≤ m2.nodes.length := by
  intro lines
  induction lines with
  | nil =>
    intro m curr m2 h hc hS
    rw [add_dep_edges_nil] at h
    cases h
    exact ⟨hS, Nat.le_refl _⟩
  | cons line rest ih =>
    intro m curr m2 h hc hS
    rcases hsi : strip_include line with e | o
    · rw [add_dep_edges_cons_err m curr rest hsi] at h
      exact absurd h (by simp)
    · rcases o with - | ⟨dk, hl⟩
      · rw [add_dep_edges_cons_none m curr rest hsi] at h
        exact ih m curr m2 h hc hS
      · by_cases hkey : dk = nodeKey m curr
        · rw [add_dep_edges_cons_self m curr rest hsi hkey] at h
          exact ih m curr m2 h hc hS
        · cases hl with
          | UNKNOWN =>
            rw [add_dep_edges_cons_unknown m curr rest hsi hkey] at h
            exact ih m curr m2 h hc hS
          | FOLLY =>
            rw [add_dep_edges_cons_folly m curr rest hsi hkey] at h
            have hS2 : SelfFree (extract_with_create m dk).2 := SelfFree_ewc hS
            have hc2 : curr < (extract_with_create m dk).2.nodes.length :=
              Nat.lt_of_lt_of_le hc (ewc_length_le m dk)
            have hne : (extract_with_create m dk).1 ≠ curr := by
              intro heq
              apply hkey
              rw [← ewc_key m dk, heq, nodeKey_ewc_old hc]
            have hS3 := SelfFree_insertEdge hc2 hne hS2
            have hc3 : curr < (insertEdge (extract_with_create m dk).2 curr
                (extract_with_create m dk).1).nodes.length := by
              rw [insertEdge_length]
              exact hc2
            obtain ⟨hS4, hle4⟩ := ih _ curr m2 h hc3 hS3
            refine ⟨hS4, ?_⟩
            calc m.nodes.length ≤ (extract_with_create m dk).2.nodes.length :=
                ewc_length_le m dk
              _ = (insertEdge (extract_with_create m dk).2 curr
                  (extract_with_create m dk).1).nodes.length :=
                (insertEdge_length _ _ _).symm
              _ ≤ m2.nodes.length := hle4

lemma pushFile_payload (fn : Str) (ft : FileType) : ∀ info : UnitInfo,
    ((pushFile fn ft) info).deps = info.deps ∧
    ((pushFile fn ft) info).reverse_deps = info.reverse_deps := by
  intro info
  cases ft <;> exact ⟨rfl, rfl⟩

lemma MV_updateVal_payload {m : UnitMap} {i : Nat} {f : UnitInfo → UnitInfo}
    (hp : ∀ info, (f info).deps = info.deps ∧ (f info).reverse_deps = info.reverse_deps)
    (hM : Mirrored m) (hV : EdgesValid m) :
    Mirrored (updateVal m i f) ∧ EdgesValid (updateVal m i f) := by
  have hsame : ∀ x, x < m.nodes.length →
      (readNode (updateVal m i f) x).deps = (readNode m x).deps ∧
      (readNode (updateVal m i f) x).reverse_deps = (readNode m x).reverse_deps := by
    intro x hx
    by_cases hxi : x = i
    · subst hxi
      rw [readNode_updateVal_same hx]
      exact hp (readNode m x)
    · rw [readNode_updateVal_ne (fun h => hxi h.symm)]
      exact ⟨rfl, rfl⟩
  constructor
  · intro a ha b hb
    rw [updateVal_length] at ha hb
    rw [(hsame a ha).1, (hsame b hb).2]
    exact hM a ha b hb
  · intro x hx
    rw [updateVal_length] at hx
    rw [updateVal_length, (hsame x hx).1, (hsame x hx).2]
    exact hV x hx

lemma SF_updateVal_payload {m : UnitMap} {i : Nat} {f : UnitInfo → UnitInfo}
    (hp : ∀ info, (f info).deps = info.deps)
    (hS : SelfFree m) : SelfFree (updateVal m i f) := by
  intro x hx
  rw [updateVal_length] at hx
  by_cases hxi : x = i
  · subst hxi
    rw [readNode_updateVal_same hx, hp]
    exact hS x hx
  · rw [readNode_updateVal_ne (fun h => hxi h.symm)]
    exact hS x hx

lemma add_node_eq {m : UnitMap} {name parent : Str} {contents : List Str}
    (hft : ¬ (strip_file_name name).2 = FileType.UNKNOWN) :
    add_node m ⟨some name, some parent⟩ contents =
      add_dependency_edges
        (updateVal (extract_with_create m ⟨(strip_file_name name).1, parent⟩).2
          (extract_with_create m ⟨(strip_file_name name).1, parent⟩).1
          (pushFile name (strip_file_name name).2))
        (extract_with_create m ⟨(strip_file_name name).1, parent⟩).1 contents := by
  simp only [add_node, if_neg hft]

lemma add_node_MV {m : UnitMap} {path : FPath} {contents : List Str} {m2 : UnitMap}
    (h : add_node m path contents = .ok m2) (hM : Mirrored m) (hV : EdgesValid m) :
    Mirrored m2 ∧ EdgesValid m2 ∧ m.nodes.length ≤ m2.nodes.length := by
  rcases path with ⟨fn, par⟩
  rcases fn with - | name
  · rw [add_node] at h
    exact absurd h (by simp)
  · by_cases hft : (strip_file_name name).2 = FileType.UNKNOWN
    · have h2 : m = m2 := by
        simp only [add_node, if_pos hft] at h
        exact Except.ok.inj h
      subst h2
      exact ⟨hM, hV, Nat.le_refl _⟩
    · rcases par with - | parent
      · simp only [add_node, if_neg hft] at h
        exact absurd h (by simp)
      · rw [add_node_eq hft] at h
        have hMV2 := Mirrored_EdgesValid_ewc
          (k := ⟨(strip_file_name name).1, parent⟩) hM hV
        have hMV3 := MV_updateVal_payload
          (i := (extract_with_create m ⟨(strip_file_name name).1, parent⟩).1)
          (pushFile_payload name (strip_file_name name).2) hMV2.1 hMV2.2
        have hcurr : (extract_with_create m ⟨(strip_file_name name).1, parent⟩).1 <
            (updateVal (extract_with_create m ⟨(strip_file_name name).1, parent⟩).2
              (extract_with_create m ⟨(strip_file_name name).1, parent⟩).1
              (pushFile name (strip_file_name name).2)).nodes.length := by
          rw [updateVal_length]
          exact ewc_idx_lt m _
        obtain ⟨hM2, hV2, hle2⟩ := add_dep_edges_MV contents _ _ m2 h hcurr hMV3.1 hMV3.2
        refine ⟨hM2, hV2, ?_⟩
        calc m.nodes.length
            ≤ (extract_with_create m ⟨(strip_file_name name).1, parent⟩).2.nodes.length :=
              ewc_length_le m _
          _ = _ := (updateVal_length _ _ _).symm
          _ ≤ m2.nodes.length := hle2

lemma add_node_SF {m : UnitMap} {path : FPath} {contents : List Str} {m2 : UnitMap}
    (h : add_node m path contents = .ok m2) (hS : SelfFree m) :
    SelfFree m2 ∧ m.nodes.length ≤ m2.nodes.length := by
  rcases path with ⟨fn, par⟩
  rcases fn with - | name
  · rw [add_node] at h
    exact absurd h (by simp)
  · by_cases hft : (strip_file_name name).2 = FileType.UNKNOWN
    · have h2 : m = m2 := by
        simp only [add_node, if_pos hft] at h
        exact Except.ok.inj h
      subst h2
      exact ⟨hS, Nat.le_refl _⟩
    · rcases par with - | parent
      · simp only [add_node, if_neg hft] at h
        exact absurd h (by simp)
      · rw [add_node_eq hft] at h
        have hS2 : SelfFree
            (extract_with_create m ⟨(strip_file_name name).1, parent⟩).2 :=
          SelfFree_ewc hS
        have hS3 := SF_updateVal_payload
          (i := (extract_with_create m ⟨(strip_file_name name).1, parent⟩).1)
          (fun info => (pushFile_payload name (strip_file_name name).2 info).1) hS2
        have hcurr : (extract_with_create m ⟨(strip_file_name name).1, parent⟩).1 <
            (updateVal (extract_with_create m ⟨(strip_file_name name).1, parent⟩).2
              (extract_with_create m ⟨(strip_file_name name).1, parent⟩).1
              (pushFile name (strip_file_name name).2)).nodes.length := by
          rw [updateVal_length]
          exact ewc_idx_lt m _
        obtain ⟨hS4, hle4⟩ := add_dep_edges_SF contents _ _ m2 h hcurr hS3
        refine ⟨hS4, ?_⟩
        calc m.nodes.length
            ≤ (extract_with_create m ⟨(strip_file_name name).1, parent⟩).2.nodes.length :=
              ewc_length_le m _
          _ = _ := (updateVal_length _ _ _).symm
          _ ≤ m2.nodes.length := hle4

mutual

lemma subtree_MV : ∀ (t : FsTree) (m : UnitMap) (p : Str) (m2 : UnitMap),
    add_initial_subtree m p t = .ok m2 → Mirrored m → EdgesValid m →
    Mirrored m2 ∧ EdgesValid m2 ∧ m.nodes.length ≤ m2.nodes.length
  | FsTree.file name contents, m, p, m2, h, hM, hV => by
    rw [add_initial_subtree] at h
    exact add_node_MV h hM hV
  | FsTree.dir name children, m, p, m2, h, hM, hV => by
    rw [add_initial_subtree] at h
    exact children_MV children m _ m2 h hM hV

lemma children_MV : ∀ (ts : List FsTree) (m : UnitMap) (p : Str) (m2 : UnitMap),
    add_subtree_children m p ts = .ok m2 → Mirrored m → EdgesValid m →
    Mirrored m2 ∧ EdgesValid m2 ∧ m.nodes.length ≤ m2.nodes.length
  | [], m, p, m2, h, hM, hV => by
    rw [add_subtree_children] at h
    cases h
    exact ⟨hM, hV, Nat.le_refl _⟩
  | t :: ts, m, p, m2, h, hM, hV => by
    rw [add_subtree_children] at h
    rcases hstep : add_initial_subtree m p t with e | m3
    · rw [hstep] at h
      exact absurd h (by simp)
    · rw [hstep] at h
      have h1 := subtree_MV t m p m3 hstep hM hV
      have h2 := children_MV ts m3 p m2 h h1.1 h1.2.1
      exact ⟨h2.1, h2.2.1, Nat.le_trans h1.2.2 h2.2.2⟩

end

/-- C2: when add_initial_subtree (the Graph Builder) completes successfully
from a unit map satisfying the mirrored-edge invariant with valid edge
endpoints (in particular from the empty map that main starts with), the
resulting unit map again satisfies B ∈ A.deps ↔ A ∈ B.reverse_deps for all
units A, B: add_dependency_edges only ever creates the forward and backward
halves of an edge together. -/
theorem add_initial_subtree_mirrored (t : FsTree) (dirPath : Str)
    (m m2 : UnitMap) (hM : Mirrored m) (hV : EdgesValid m)
    (h : add_initial_subtree m dirPath t = .ok m2) : Mirrored m2 :=
  (subtree_MV t m dirPath m2 h hM hV).1

/-- Witness for add_initial_subtree_mirrored: a directory with one header
whose include creates a mirrored edge pair. -/
theorem add_initial_subtree_mirrored_witness :
    Mirrored emptyMap ∧ EdgesValid emptyMap ∧
    add_initial_subtree emptyMap "lib".data
        (FsTree.dir "folly".data
          [FsTree.file "Foo.h".data ["#include <folly/Bar.h>".data]]) =
      .ok ⟨[(⟨"foo".data, "lib/folly".data⟩, ⟨["Foo.h".data], [], {1}, ∅⟩),
           (⟨"bar".data, "folly".data⟩, ⟨[], [], ∅, {0}⟩)]⟩ ∧
    Mirrored ⟨[(⟨"foo".data, "lib/folly".data⟩, ⟨["Foo.h".data], [], {1}, ∅⟩),
              (⟨"bar".data, "folly".data⟩, ⟨[], [], ∅, {0}⟩)]⟩ :=
  ⟨by decide, by decide, by decide,
    add_initial_subtree_mirrored
      (FsTree.dir "folly".data
        [FsTree.file "Foo.h".data ["#include <folly/Bar.h>".data]])
      "lib".data emptyMap
      ⟨[(⟨"foo".data, "lib/folly".data⟩, ⟨["Foo.h".data], [], {1}, ∅⟩),
        (⟨"bar".data, "folly".data⟩, ⟨[], [], ∅, {0}⟩)]⟩
      (by decide) (by decide) (by decide)⟩

/-- C4: a run of add_node on any file never inserts the file's own unit
into that unit's deps set: if no unit depends on itself before the call, no
unit depends on itself after it.  The include-skip guard discards an
include whose key equals the current node's key, and any other inserted
dependency handle carries a different key, hence is a different node. -/
theorem add_node_self_free (m : UnitMap) (path : FPath) (contents : List Str)
    (m2 : UnitMap) (hS : SelfFree m) (h : add_node m path contents = .ok m2) :
    SelfFree m2 :=
  (add_node_SF h hS).1

/-- Witness for add_node_self_free: Foo.h in directory folly includes its
own declared header folly/Foo.h and gains no self dependency. -/
theorem add_node_self_free_witness :
    SelfFree emptyMap ∧
    add_node emptyMap ⟨some "Foo.h".data, some "folly".data⟩
        ["#include <folly/Foo.h>".data] =
      .ok ⟨[(⟨"foo".data, "folly".data⟩, ⟨["Foo.h".data], [], ∅, ∅⟩)]⟩ ∧
    SelfFree ⟨[(⟨"foo".data, "folly".data⟩, ⟨["Foo.h".data], [], ∅, ∅⟩)]⟩ :=
  ⟨by decide, by decide,
    add_node_self_free emptyMap ⟨some "Foo.h".data, some "folly".data⟩
      ["#include <folly/Foo.h>".data]
      ⟨[(⟨"foo".data, "folly".data⟩, ⟨["Foo.h".data], [], ∅, ∅⟩)]⟩
      (by decide) (by decide)⟩

/-- C6 counterexample: camel_to_snake is not idempotent on every string: a
trailing delimiter ("a_") or a run of adjacent delimiters ("a__b") is
duplicated again by a second application. -/
theorem camel_to_snake_not_idem :
    camel_to_snake (camel_to_snake "a_".data) ≠ camel_to_snake "a_".data ∧
    camel_to_snake (camel_to_snake "a__b".data) ≠ camel_to_snake "a__b".data :=
  ⟨by decide, by decide⟩

/-- C6 (amended): camel_to_snake is idempotent on every string with no two
adjacent underscores and no trailing underscore, and in particular
HTTPServer, FooBar and already_snake normalize as specified. -/
theorem camel_to_snake_idem_amended :
    (∀ s : Str, noDD s → lastNotDelim s →
      camel_to_snake (camel_to_snake s) = camel_to_snake s) ∧
    camel_to_snake "HTTPServer".data = "http_server".data ∧
    camel_to_snake "FooBar".data = "foo_bar".data ∧
    camel_to_snake "already_snake".data = "already_snake".data := by
  refine ⟨fun s hD hL => ?_, by decide, by decide, by decide⟩
  obtain ⟨hU2, hD2, hL2⟩ := camel_to_snake_clean hD hL
  exact camel_to_snake_fixed hU2 hD2 hL2

/-- Witness for camel_to_snake_idem_amended at HTTPServer. -/
theorem camel_to_snake_idem_witness :
    noDD "HTTPServer".data ∧ lastNotDelim "HTTPServer".data ∧
    camel_to_snake (camel_to_snake "HTTPServer".data) =
      camel_to_snake "HTTPServer".data :=
  ⟨by decide, by decide,
    camel_to_snake_idem_amended.1 "HTTPServer".data (by decide) (by decide)⟩

lemma suffix_getLast {l₁ l₂ : Str} (h : l₁ <:+ l₂) (hne : l₁ ≠ []) :
    l₂.getLast? = l₁.getLast? := by
  obtain ⟨t, rfl⟩ := h
  rw [List.getLast?_append, List.getLast?_eq_getLast_of_ne_nil hne, Option.or_some]

lemma not_suffix_of_getLast_ne {p : Str} {fn : Str} {c d : Char}
    (hfn : fn.getLast? = some c) (hp : p.getLast? = some d) (hne : c ≠ d) :
    ¬ p <:+ fn := by
  intro hsuf
  have hpne : p ≠ [] := by
    intro hx
    rw [hx] at hp
    exact absurd hp (by simp)
  rw [suffix_getLast hsuf hpne, hp] at hfn
  exact hne (Option.some.inj hfn).symm

/-- C7: the suffix table is consulted in its fixed source order, so the
test-source suffixes win over the plain source suffixes and the template
suffix wins over the plain header suffix; widget_test.cpp classifies as a
test file, and a name matching no suffix is UNKNOWN and kept verbatim. -/
theorem strip_file_name_priority :
    (∀ fn : Str, "test.cpp".data <:+ fn →
      (strip_file_name fn).2 = FileType.TEST) ∧
    (∀ fn : Str, "test.cc".data <:+ fn →
      (strip_file_name fn).2 = FileType.TEST) ∧
    (∀ fn : Str, "-inl.h".data <:+ fn →
      (strip_file_name fn).2 = FileType.TEMPLATE) ∧
    (strip_file_name "widget_test.cpp".data).2 = FileType.TEST ∧
    (∀ fn : Str, (∀ p ∈ suffixes, ¬ p.1 <:+ fn) →
      strip_file_name fn = (fn, FileType.UNKNOWN)) := by
  refine ⟨?_, ?_, ?_, by decide, ?_⟩
  · intro fn h
    have hfind : suffixes.find? (fun p => p.1.isSuffixOf fn) =
        some ("test.cpp".data, FileType.TEST) := by
      rw [suffixes, List.find?_cons_of_pos (p := fun q : Str × FileType => q.1.isSuffixOf fn) _
        (List.isSuffixOf_iff_suffix.mpr h)]
    rw [strip_file_name, hfind]
  · intro fn h
    have hlast : fn.getLast? = some 'c' := by
      rw [suffix_getLast h (by decide)]
      decide
    have h1 : ¬ "test.cpp".data <:+ fn :=
      not_suffix_of_getLast_ne (d := 'p') hlast (by decide) (by decide)
    have hfind : suffixes.find? (fun p => p.1.isSuffixOf fn) =
        some ("test.cc".data, FileType.TEST) := by
      rw [suffixes,
        List.find?_cons_of_neg (p := fun q : Str × FileType => q.1.isSuffixOf fn) _ (by
          intro hx
          exact h1 (List.isSuffixOf_iff_suffix.mp hx)),
        List.find?_cons_of_pos (p := fun q : Str × FileType => q.1.isSuffixOf fn) _
          (List.isSuffixOf_iff_suffix.mpr h)]
    rw [strip_file_name, hfind]
  · intro fn h
    have hlast : fn.getLast? = some 'h' := by
      rw [suffix_getLast h (by decide)]
      decide
    have hno : ∀ q : Str, q.getLast? = some 'p' ∨ q.getLast? = some 'c' →
        ¬ (q.isSuffixOf fn = true) := by
      intro q hq hx
      rcases hq with hq | hq
      · exact not_suffix_of_getLast_ne (d := 'p') hlast hq (by decide)
          (List.isSuffixOf_iff_suffix.mp hx)
      · exact not_suffix_of_getLast_ne (d := 'c') hlast hq (by decide)
          (List.isSuffixOf_iff_suffix.mp hx)
    have hfind : suffixes.find? (fun p => p.1.isSuffixOf fn) =
        some ("-inl.h".data, FileType.TEMPLATE) := by
      rw [suffixes,
        List.find?_cons_of_neg (p := fun q : Str × FileType => q.1.isSuffixOf fn) _
          (hno "test.cpp".data (Or.inl (by decide))),
        List.find?_cons_of_neg (p := fun q : Str × FileType => q.1.isSuffixOf fn) _
          (hno "test.cc".data (Or.inr (by decide))),
        List.find?_cons_of_neg (p := fun q : Str × FileType => q.1.isSuffixOf fn) _
          (hno ".cpp".data (Or.inl (by decide))),
        List.find?_cons_of_neg (p := fun q : Str × FileType => q.1.isSuffixOf fn) _
          (hno ".cc".data (Or.inr (by decide))),
        List.find?_cons_of_pos (p := fun q : Str × FileType => q.1.isSuffixOf fn) _
          (List.isSuffixOf_iff_suffix.mpr h)]
    rw [strip_file_name, hfind]
  · intro fn h
    have hfind : suffixes.find? (fun p => p.1.isSuffixOf fn) = none := by
      rw [List.find?_eq_none]
      intro x hx hbad
      exact h x hx (List.isSuffixOf_iff_suffix.mp hbad)
    rw [strip_file_name, hfind]

/-- Witness for strip_file_name_priority: Widget-inl.h is a template
header, not a plain header. -/
theorem strip_file_name_priority_witness :
    ("-inl.h".data <:+ "Widget-inl.h".data) ∧
    (strip_file_name "Widget-inl.h".data).2 = FileType.TEMPLATE :=
  ⟨by decide, strip_file_name_priority.2.2.1 "Widget-inl.h".data (by decide)⟩

/-- C5, the code evaluated at the specified inputs: the angle-bracket form
resolves folly/FooBar.h to key {foo_bar, folly} with the in-scope FOLLY
tag; but strip_include on the external include vector returns the key
{vector, ""} together with the UNKNOWN tag rather than no key, and on the
quoted form of FooBar-inl.h it returns key {fo, ""}: the closing-quote
index is found relative to the character after the opening quote but used
as an absolute index, so the extracted path is line[10..12].  On the plain
quoted FooBar.h the same slip inverts the slice bounds (10..8), which
panics in Rust. -/
theorem strip_include_quote_bug :
    strip_include "#include <folly/FooBar.h>".data =
      .ok (some (⟨"foo_bar".data, "folly".data⟩, HeaderLib.FOLLY)) ∧
    strip_include "#include <vector>".data =
      .ok (some (⟨"vector".data, []⟩, HeaderLib.UNKNOWN)) ∧
    strip_include "#include \"FooBar-inl.h\"".data =
      .ok (some (⟨"fo".data, []⟩, HeaderLib.UNKNOWN)) ∧
    strip_include "#include \"FooBar.h\"".data =
      .error "#include \"FooBar.h\"".data :=
  ⟨by decide, by decide, by decide, by decide⟩

lemma mem_findIdx?_some {l : Str} {a : Char} (h : a ∈ l) :
    ∃ s, l.findIdx? (fun c => c == a) = some s := by
  cases hf : l.findIdx? (fun c => c == a) with
  | some s => exact ⟨s, rfl⟩
  | none =>
    rw [List.findIdx?_eq_none_iff] at hf
    exact absurd (hf a h) (by simp)

lemma notMem_findIdx?_none {l : Str} {a : Char} (h : a ∉ l) :
    l.findIdx? (fun c => c == a) = none := by
  rw [List.findIdx?_eq_none_iff]
  intro x hx
  rw [beq_eq_false_iff_ne]
  intro he
  subst he
  exact h hx

lemma count_one_findIdx? : ∀ (l : Str) (a : Char), l.count a = 1 →
    ∃ s, l.findIdx? (fun c => c == a) = some s ∧
      (l.drop (s + 1)).findIdx? (fun c => c == a) = none := by
  intro l
  induction l with
  | nil =>
    intro a h
    simp at h
  | cons b t ih =>
    intro a h
    by_cases hb : b = a
    · subst hb
      have hc : t.count b = 0 := by
        rw [List.count_cons_self] at h
        omega
      refine ⟨0, ?_, ?_⟩
      · rw [List.findIdx?_cons, if_pos (by simp)]
      · rw [List.drop_succ_cons, List.drop_zero]
        apply notMem_findIdx?_none
        rw [← List.count_eq_zero]
        exact hc
    · have hc : t.count a = 1 := by
        rw [List.count_cons_of_ne (fun he => hb he.symm)] at h
        exact h
      obtain ⟨s, hs, hafter⟩ := ih a hc
      refine ⟨s + 1, ?_, ?_⟩
      · rw [List.findIdx?_cons, if_neg (by simp [hb]), List.findIdx?_start_succ, hs]
        rfl
      · rw [List.drop_succ_cons]
        exact hafter

/-- C8: an include line whose opening delimiter has no matching closing
delimiter is a fatal parse error carrying the offending line: an angle
bracket without a closing angle bracket anywhere on the line, or a single
quote character with no second quote (both assert(false) in the source);
the line is not recovered or skipped. -/
theorem strip_include_malformed_fatal (line : Str)
    (hpre : "#include".data <+: line)
    (h : ('<' ∈ line ∧ '>' ∉ line) ∨ ('<' ∉ line ∧ line.count '"' = 1)) :
    strip_include line = .error line := by
  rcases h with ⟨hlt, hgt⟩ | ⟨hlt, hq⟩
  · obtain ⟨s, hs⟩ := mem_findIdx?_some hlt
    have h2 : line.findIdx? (fun c => c == '>') = none := notMem_findIdx?_none hgt
    simp only [strip_include, if_neg (not_not_intro hpre), hs, h2]
  · have h1 : line.findIdx? (fun c => c == '<') = none := notMem_findIdx?_none hlt
    obtain ⟨s, hs, hafter⟩ := count_one_findIdx? line '"' hq
    simp only [strip_include, if_neg (not_not_intro hpre), h1, hs, hafter]

/-- Witness for strip_include_malformed_fatal: an include with an opening
angle bracket and no closing one aborts with the line attached. -/
theorem strip_include_malformed_fatal_witness :
    ("#include".data <+: "#include <folly/Foo.h".data) ∧
    strip_include "#include <folly/Foo.h".data =
      .error "#include <folly/Foo.h".data :=
  ⟨by decide, strip_include_malformed_fatal "#include <folly/Foo.h".data
    (by decide) (Or.inl ⟨by decide, by decide⟩)⟩
